import Mathlib

/-!
Verification development for the field-resolution engine of this repository.

The embedding below translates, function by function, the Python code of
`two.py` (resilient Gemini client), `one.py` (model-assisted matcher with
fuzzy fallback) and `important_agent.py` (entity-boosted fuzzy matcher)
into executable Lean definitions.  External collaborators (the HTTP stack,
SpaCy entity recognition, PDF reading) are passed in as parameters, exactly
at the boundary where the Python code calls into the corresponding library.
-/

namespace AIAgent

/-! ### Python string primitives used by the source

Python `str.replace`, `str.lower`, `str.strip` and `str.split()` are
re-implemented over `List Char` so that all definitions reduce in the
kernel.  `isPyWs` is the ASCII whitespace class of Python (`\s` for the
ASCII inputs handled by this program). -/

def isPyWs (c : Char) : Bool :=
  c = ' ' || c = '\t' || c = '\n' || c = '\r' || c = '\x0b' || c = '\x0c'

/-- Python `str.replace`: replace all non-overlapping occurrences of `pat`,
scanning left to right.  The fuel argument starts at the length of the
string; each step consumes at least one character, so the fuel never runs
out on the initial call. -/
def replaceFuel (pat rep : List Char) : Nat → List Char → List Char
  | 0, s => s
  | fuel + 1, s =>
    match s with
    | [] => []
    | c :: rest =>
      if pat.isPrefixOf s then rep ++ replaceFuel pat rep fuel (s.drop pat.length)
      else c :: replaceFuel pat rep fuel rest

def pyReplace (s pat rep : String) : String :=
  if pat.toList = [] then s
  else String.mk (replaceFuel pat.toList rep.toList s.toList.length s.toList)

/-- Python `str.lower` (ASCII range, which is all this program feeds it). -/
def pyLower (s : String) : String :=
  String.mk (s.toList.map Char.toLower)

def pyStripL (l : List Char) : List Char :=
  ((l.dropWhile isPyWs).reverse.dropWhile isPyWs).reverse

/-- Python `str.strip()`. -/
def pyStrip (s : String) : String :=
  String.mk (pyStripL s.toList)

/-! ### Resilient model client: `two.py`, `call_gemini_api` (lines 62-156)
and `modify_prompt_for_safety` (lines 49-60).

One HTTP attempt is modelled by an `AttemptOutcome`: either `requests`
raises (the three `except` clauses of the source catch `HTTPError`,
`RequestException` and `Exception`, so every raise is absorbed by the retry
loop and the embedding stays total — the client never raises to its
caller), or the body is not JSON, or it parses into a candidate list.  A
candidate carries its `finishReason` and the list of `text` entries of
`content.parts`. -/

structure Candidate where
  finishReason : String
  parts : List String
  deriving DecidableEq, Repr

inductive AttemptOutcome where
  | raiseHttp
  | raiseReq
  | raiseOther
  | notJson
  | body (candidates : List Candidate)

/-- Result of `call_gemini_api`: the returned string, the prompt sent on
each HTTP attempt (in order), and the backoff sleeps performed. -/
structure ApiResult where
  retVal : String
  prompts : List String
  sleeps : List Nat
  deriving DecidableEq, Repr

/-- `modify_prompt_for_safety` of `two.py` (lines 49-60). -/
def modify_prompt_for_safety (original_prompt : String) : String :=
  pyReplace (pyReplace original_prompt "Please extract" "Kindly provide")
    "extract" "identify and provide"

/-- Loop body of `call_gemini_api` (`for attempt in range(retry_count)`).
`remaining` is `retry_count - attempt`, so the guard
`attempt < retry_count - 1` of the SAFETY branch is `remaining > 1`,
i.e. `r > 0` after the pattern `remaining = r + 1`.  The server function
`srv` gives the outcome of the HTTP attempt with the given index. -/
def callGeminiAux (srv : Nat → AttemptOutcome) (backoff : Nat) :
    Nat → Nat → String → List String → List Nat → ApiResult
  | 0, _, _, prompts, sleeps => ⟨"", prompts, sleeps⟩
  | r + 1, attempt, prompt, prompts, sleeps =>
    let prompts := prompts ++ [prompt]
    match srv attempt with
    | .raiseHttp =>
        callGeminiAux srv backoff r (attempt + 1) prompt prompts
          (sleeps ++ [backoff ^ attempt])
    | .raiseReq =>
        callGeminiAux srv backoff r (attempt + 1) prompt prompts
          (sleeps ++ [backoff ^ attempt])
    | .raiseOther =>
        callGeminiAux srv backoff r (attempt + 1) prompt prompts
          (sleeps ++ [backoff ^ attempt])
    | .notJson => ⟨"", prompts, sleeps⟩
    | .body [] => ⟨"", prompts, sleeps⟩
    | .body (c :: _) =>
      if c.finishReason = "SAFETY" then
        if r > 0 then
          callGeminiAux srv backoff r (attempt + 1)
            (modify_prompt_for_safety prompt) prompts
            (sleeps ++ [backoff ^ attempt])
        else ⟨"", prompts, sleeps⟩
      else ⟨c.parts.headD "", prompts, sleeps⟩

/-- `call_gemini_api` of `two.py` (lines 62-156).  The source returns
`parts[0]['text']` on a normal candidate and the empty string on every
failure shape (`parts` empty or the text empty collapse to the same
returned value, mirrored by `headD ""`). -/
def call_gemini_api (srv : Nat → AttemptOutcome) (prompt : String)
    (retry_count : Nat) (backoff_factor : Nat) : ApiResult :=
  callGeminiAux srv backoff_factor retry_count 0 prompt [] []

/-! ### Similarity scorer

`rapidfuzz.fuzz.ratio` is the normalized indel similarity,
`100 * (|a| + |b| - dist) / (|a| + |b|)` where `dist` is the
insertion/deletion edit distance, i.e. `|a| + |b| - 2 * lcs(a, b)`; two
empty strings score 100.  `fuzz.token_sort_ratio` splits on whitespace,
sorts the tokens, joins with single spaces and applies `ratio`.  Scores are
modelled in `ℚ` (the library computes the same quotients in floating
point). -/

/-- Longest common subsequence length; the fuel starts at
`|a| + |b|`, which every recursive call respects, so the fuel never runs
out. -/
def lcsAux : Nat → List Char → List Char → Nat
  | 0, _, _ => 0
  | _ + 1, [], _ => 0
  | _ + 1, _ :: _, [] => 0
  | n + 1, a :: as, b :: bs =>
    if a = b then lcsAux n as bs + 1
    else max (lcsAux n as (b :: bs)) (lcsAux n (a :: as) bs)

def lcsLen (a b : List Char) : Nat :=
  lcsAux (a.length + b.length) a b

def indelDist (a b : List Char) : Nat :=
  a.length + b.length - 2 * lcsLen a b

/-- The exact value `100 * (s - dist) / s` is built with `mkRat` (instead
of `ℚ` division) so that every score comparison evaluates inside the
kernel; `ratioList_eq_div` below shows it is the same rational. -/
def ratioList (a b : List Char) : ℚ :=
  let s := a.length + b.length
  if s = 0 then 100 else mkRat (100 * ((s - indelDist a b : ℕ) : ℤ)) s

/-- Exact addition of a natural number to a rational, again phrased with
`mkRat` for kernel evaluation; `ratPlusNat_eq` below shows
`ratPlusNat q n = q + n`. -/
def ratPlusNat (q : ℚ) (n : Nat) : ℚ :=
  mkRat (q.num + n * q.den) q.den

/-- `rapidfuzz.fuzz.ratio`. -/
def fuzz_ratio (a b : String) : ℚ :=
  ratioList a.toList b.toList

/-- Python `str.split()`: split on whitespace runs, dropping empty tokens. -/
def splitWsAux : List Char → List Char → List (List Char)
  | [], acc => if acc = [] then [] else [acc.reverse]
  | c :: rest, acc =>
    if isPyWs c then
      if acc = [] then splitWsAux rest []
      else acc.reverse :: splitWsAux rest []
    else splitWsAux rest (c :: acc)

def splitWs (cs : List Char) : List (List Char) :=
  splitWsAux cs []

/-- Code-point lexicographic `<` on token character lists, as Python
compares strings. -/
def lexLt : List Char → List Char → Bool
  | [], [] => false
  | [], _ :: _ => true
  | _ :: _, [] => false
  | a :: as, b :: bs => if a = b then lexLt as bs else decide (a < b)

def insertTok (x : List Char) : List (List Char) → List (List Char)
  | [] => [x]
  | y :: ys => if lexLt y x then y :: insertTok x ys else x :: y :: ys

/-- Sorted token list (insertion sort; the order `lexLt` is total, so this
agrees with Python `sorted`). -/
def sortToks : List (List Char) → List (List Char)
  | [] => []
  | x :: xs => insertTok x (sortToks xs)

def joinSpace : List (List Char) → List Char
  | [] => []
  | [t] => t
  | t :: ts => t ++ ' ' :: joinSpace ts

def tokenSortPrep (s : String) : List Char :=
  joinSpace (sortToks (splitWs s.toList))

/-- `rapidfuzz.fuzz.token_sort_ratio`. -/
def token_sort_ratio (a b : String) : ℚ :=
  ratioList (tokenSortPrep a) (tokenSortPrep b)

/-! ### Entity-boosted fuzzy matcher: `important_agent.py`,
`find_best_match` (lines 131-164).

The SpaCy pipeline is an external collaborator: `ents s` stands for
`[ent.label_ for ent in nlp(s).ents]`, applied by the source to the
lower-cased field name and key. -/

/-- Per-pair score of `find_best_match`:
`fuzz.token_sort_ratio(field_name.lower(), key.lower())`, plus 10 when the
entity-label sets of the two lower-cased strings intersect (lines
144-150). -/
def scorePair (ents : String → List String) (field_name key : String) : ℚ :=
  let score := token_sort_ratio (pyLower field_name) (pyLower key)
  if (ents (pyLower field_name)).any
      (fun e => decide (e ∈ ents (pyLower key))) then
    ratPlusNat score 10
  else score

/-- `find_best_match` of `important_agent.py` (lines 131-164): fold over
`data.keys()` keeping the first strict maximum, returning it only when the
best score exceeds 40. -/
def find_best_match (ents : String → List String) (field_name : String)
    (dataKeys : List String) : Option String :=
  let r := dataKeys.foldl
    (fun st key =>
      if scorePair ents field_name key > st.2 then (some key, scorePair ents field_name key)
      else st)
    ((none : Option String), (0 : ℚ))
  if r.2 > 40 then r.1 else none

/-! ### Pure fallback fuzzy matcher: `one.py`,
`fallback_fuzzy_matching` (lines 276-284). -/

/-- Python `max(data_keys, key=f)`: first maximum of a non-empty list,
`none` (a raised `ValueError`) on an empty one. -/
def pyMax (key : String → ℚ) : List String → Option String
  | [] => none
  | x :: xs => some (xs.foldl (fun b y => if key y > key b then y else b) x)

/-- Body of the `for field in pdf_fields` loop of
`fallback_fuzzy_matching`: `max` over the data keys by
`fuzz.ratio(field.lower(), x.lower())` — which raises `ValueError` on an
empty key list — then the `> 70` acceptance test. -/
def fuzzyOne (data_keys : List String) (field : String) :
    Except String (String × Option String) :=
  match pyMax (fun x => fuzz_ratio (pyLower field) (pyLower x)) data_keys with
  | none => .error "ValueError: max() arg is an empty sequence"
  | some best =>
    .ok (field,
      if fuzz_ratio (pyLower field) (pyLower best) > 70 then some best else none)

/-- `fallback_fuzzy_matching` of `one.py` (lines 276-284), with the
`ValueError` escaping the loop modelled by `Except`. -/
def fallback_fuzzy_matching (pdf_fields data_keys : List String) :
    Except String (List (String × Option String)) :=
  match pdf_fields with
  | [] => .ok []
  | f :: rest =>
    match fuzzyOne data_keys f with
    | .error e => .error e
    | .ok pr =>
      match fallback_fuzzy_matching rest data_keys with
      | .error e => .error e
      | .ok m => .ok (pr :: m)

/-! ### Response extractor: `one.py`, `strip_code_blocks` (lines 226-239).

The source runs `re.search` with the DOTALL pattern
three-backticks + `json` + `\s*` + `\n?` + lazy group + `\n?` +
three-backticks, returning the stripped group on a match and the stripped
input otherwise.  The functions below are that regex, with Python's
backtracking order: `\s*` and `\n?` greedy, the group lazy, and the search
trying start positions left to right. -/

def fenceTag : List Char := "```json".toList

def closeTick : List Char := "```".toList

/-- Boolean test for the regex tail `\n?` + closing fence at the current
position: the greedy `\n?` first consumes a newline, then backtracks. -/
def tailTicks (cs : List Char) : Bool :=
  closeTick.isPrefixOf cs ||
    (match cs with
     | '\n' :: r => closeTick.isPrefixOf r
     | _ => false)

/-- Lazy group `(.*?)` followed by `\n?` + closing fence: the group grows
one character at a time, stopping at the first position where the tail
matches; the group's characters are returned. -/
def matchLazy : List Char → Option (List Char)
  | [] => if tailTicks [] then some [] else none
  | cs@(c :: rest) =>
    if tailTicks cs then some []
    else
      match matchLazy rest with
      | some g => some (c :: g)
      | none => none

/-- Greedy `\n?` before the lazy group. -/
def matchNlThen (cs : List Char) : Option (List Char) :=
  match cs with
  | '\n' :: rest =>
    match matchLazy rest with
    | some g => some g
    | none => matchLazy cs
  | _ => matchLazy cs

/-- Greedy `\s*` before the `\n?`: consume as much whitespace as possible,
backtracking one character at a time. -/
def matchWsThen : List Char → Option (List Char)
  | [] => matchNlThen []
  | cs@(c :: rest) =>
    if isPyWs c then
      match matchWsThen rest with
      | some g => some g
      | none => matchNlThen cs
    else matchNlThen cs

/-- Attempt the whole pattern anchored at the current position. -/
def tryFenceAt (cs : List Char) : Option (List Char) :=
  if fenceTag.isPrefixOf cs then matchWsThen (cs.drop 7) else none

/-- `re.search`: leftmost successful start position. -/
def searchFence : List Char → Option (List Char)
  | [] => tryFenceAt []
  | cs@(_ :: rest) =>
    match tryFenceAt cs with
    | some g => some g
    | none => searchFence rest

/-- `strip_code_blocks` of `one.py` (lines 226-239). -/
def strip_code_blocks (text : String) : String :=
  match searchFence text.toList with
  | some g => String.mk (pyStripL g)
  | none => pyStrip text

/-- A complete fence in the sense of the pattern: an occurrence of the
tagged opening fence, with a closing fence starting at or after its end.
`searchFence` succeeds exactly on such inputs (proved below). -/
def hasFence (l : List Char) : Prop :=
  ∃ i, fenceTag <+: l.drop i ∧ closeTick <:+: l.drop (i + 7)

/-! ### Model-assisted matcher and orchestrator: `one.py`,
`match_fields_with_gemini` (lines 179-224) and `fill_form`
(lines 149-177).

`json.loads` is external; it enters as a parameter
`parse : String → Option (List (String × Option String))`, returning the
parsed field-to-key object on success (per the prompt contract each value
is a data key or `null`) and `none` on `json.JSONDecodeError`.  The raw
model response text is likewise a parameter — in the source it is the
return of `call_gemini_api`.  The audit write `write_response_to_file` is
an external side effect with no bearing on the returned mapping. -/

def lbrace : Char := Char.ofNat 123

def rbrace : Char := Char.ofNat 125

/-- The recovery regex `re.search(r'\{.*\}', cleaned, re.DOTALL)`: with a
greedy DOTALL `.*` this matches from the first opening brace to the last
closing brace after it, if any. -/
def extractBraces (s : String) : Option String :=
  let cs := s.toList
  match cs.findIdx? (fun c => c = lbrace) with
  | none => none
  | some i =>
    match cs.reverse.findIdx? (fun c => c = rbrace) with
    | none => none
    | some rj =>
      let j := cs.length - 1 - rj
      if i < j then some (String.mk ((cs.drop i).take (j - i + 1))) else none

/-- `match_fields_with_gemini` of `one.py` (lines 179-224): parse the
fence-stripped response; on failure parse the brace-extraction recovery;
on failure fall back to fuzzy matching. -/
def match_fields_with_gemini
    (parse : String → Option (List (String × Option String)))
    (response : String) (pdf_fields data_keys : List String) :
    Except String (List (String × Option String)) :=
  let cleaned := strip_code_blocks response
  match parse cleaned with
  | some m => .ok m
  | none =>
    match extractBraces cleaned with
    | some span =>
      match parse span with
      | some m => .ok m
      | none => fallback_fuzzy_matching pdf_fields data_keys
    | none => fallback_fuzzy_matching pdf_fields data_keys

/-- Python dict assignment `updates[k] = v`: overwrite in place or append. -/
def dictInsert (m : List (String × String)) (k v : String) :
    List (String × String) :=
  if m.any (fun p => p.1 == k) then
    m.map (fun p => if p.1 == k then (k, v) else p)
  else m ++ [(k, v)]

/-- Python `data[k]` guarded by `k in data`. -/
def dictGet (data : List (String × String)) (k : String) : Option String :=
  (data.find? (fun p => p.1 == k)).map (fun p => p.2)

/-- The update loop of `fill_form` (`one.py` lines 163-165): for each
matched pair, if the matched data key is a key of `data`, write the data
value under the PDF field name. -/
def fill_form_updates (matched : List (String × Option String))
    (data : List (String × String)) : List (String × String) :=
  matched.foldl
    (fun updates pr =>
      match pr.2 with
      | some k =>
        match dictGet data k with
        | some v => dictInsert updates pr.1 v
        | none => updates
      | none => updates)
    []

/-- The resolution core of `fill_form` (`one.py` lines 159-165): run the
matcher on the field names and the data keys, then build the updates
mapping.  Form-field discovery and the PDF write are external
collaborators. -/
def resolve_and_update
    (parse : String → Option (List (String × Option String)))
    (response : String) (fields : List String)
    (data : List (String × String)) : Except String (List (String × String)) :=
  match match_fields_with_gemini parse response fields (data.map Prod.fst) with
  | .error e => .error e
  | .ok matched => .ok (fill_form_updates matched data)

/-! ### Concrete instances used by counterexamples and witnesses. -/

/-- Server whose first response is safety-blocked and whose later responses
carry the text `world`. -/
def c1srv : Nat → AttemptOutcome := fun n =>
  if n = 0 then .body [⟨"SAFETY", []⟩] else .body [⟨"STOP", ["world"]⟩]

/-- Server mixing one safety rejection with persistent transport
failures. -/
def c9srv : Nat → AttemptOutcome := fun n =>
  if n = 0 then .body [⟨"SAFETY", []⟩] else .raiseReq

/-- A `json.loads` stub that fails on every input. -/
def parseNone : String → Option (List (String × Option String)) := fun _ => none

/-- A `json.loads` stub representing a model response whose JSON object
carries a field name that does not occur on the form. -/
def parseGhost : String → Option (List (String × Option String)) := fun s =>
  if s = "GHOST" then some [("Ghost Field", some "k")] else none

/-! ## Helper lemmas -/

theorem callGeminiAux_prompts_len (srv : Nat → AttemptOutcome) (b : Nat) :
    ∀ (r a : Nat) (p : String) (ps : List String) (ss : List Nat),
      (callGeminiAux srv b r a p ps ss).prompts.length ≤ ps.length + r := by
  intro r
  induction r with
  | zero => intro a p ps ss; simp [callGeminiAux]
  | succ r ih =>
    intro a p ps ss
    simp only [callGeminiAux]
    cases h : srv a with
    | raiseHttp =>
      have := ih (a + 1) p (ps ++ [p]) (ss ++ [b ^ a])
      simp at this ⊢; omega
    | raiseReq =>
      have := ih (a + 1) p (ps ++ [p]) (ss ++ [b ^ a])
      simp at this ⊢; omega
    | raiseOther =>
      have := ih (a + 1) p (ps ++ [p]) (ss ++ [b ^ a])
      simp at this ⊢; omega
    | notJson => simp
    | body cs =>
      cases cs with
      | nil => simp
      | cons c rest =>
        by_cases hfr : c.finishReason = "SAFETY"
        · simp only [hfr, if_pos rfl]
          by_cases hr : r > 0
          · simp only [if_pos hr]
            have := ih (a + 1) (modify_prompt_for_safety p) (ps ++ [p]) (ss ++ [b ^ a])
            simp at this ⊢; omega
          · simp only [if_neg hr]; simp
        · simp only [if_neg hfr]; simp

theorem lcsAux_le_left : ∀ (n : Nat) (a b : List Char), lcsAux n a b ≤ a.length := by
  intro n
  induction n with
  | zero => intro a b; simp [lcsAux]
  | succ n ih =>
    intro a b
    match a, b with
    | [], _ => simp [lcsAux]
    | _ :: _, [] => simp [lcsAux]
    | x :: as, y :: bs =>
      simp only [lcsAux]
      split
      · have := ih as bs; simp; omega
      · have h1 := ih as (y :: bs)
        have h2 := ih (x :: as) bs
        simp at h1 h2 ⊢; omega

theorem lcsAux_le_right : ∀ (n : Nat) (a b : List Char), lcsAux n a b ≤ b.length := by
  intro n
  induction n with
  | zero => intro a b; simp [lcsAux]
  | succ n ih =>
    intro a b
    match a, b with
    | [], _ => simp [lcsAux]
    | _ :: _, [] => simp [lcsAux]
    | x :: as, y :: bs =>
      simp only [lcsAux]
      split
      · have := ih as bs; simp; omega
      · have h1 := ih as (y :: bs)
        have h2 := ih (x :: as) bs
        simp at h1 h2 ⊢; omega

theorem lcsAux_self : ∀ (a : List Char) (n : Nat), a.length ≤ n → lcsAux n a a = a.length := by
  intro a
  induction a with
  | nil => intro n _; cases n <;> simp [lcsAux]
  | cons x as ih =>
    intro n hn
    match n, hn with
    | m + 1, hn =>
      simp only [lcsAux, if_pos rfl]
      rw [ih m (by simpa using hn)]
      simp

theorem indelDist_self (a : List Char) : indelDist a a = 0 := by
  have h := lcsAux_self a (a.length + a.length) (by omega)
  simp only [indelDist, lcsLen, h]
  omega

theorem indelDist_le (a b : List Char) : indelDist a b ≤ a.length + b.length := by
  simp [indelDist]

theorem ratioList_eq_div (a b : List Char) (h : a.length + b.length ≠ 0) :
    ratioList a b =
      100 * ((a.length + b.length - indelDist a b : ℕ) : ℚ) /
        ((a.length + b.length : ℕ) : ℚ) := by
  simp only [ratioList, if_neg h, Rat.mkRat_eq_div]
  push_cast
  ring

theorem ratioList_self (a : List Char) : ratioList a a = 100 := by
  by_cases h : a.length + a.length = 0
  · simp [ratioList, h]
  · rw [ratioList_eq_div a a h, indelDist_self]
    have hs : ((a.length : ℚ) + (a.length : ℚ)) ≠ 0 := by
      intro hc
      apply h
      have : ((a.length + a.length : ℕ) : ℚ) = 0 := by push_cast; linarith
      exact_mod_cast this
    push_cast
    rw [Nat.sub_zero]
    push_cast
    rw [mul_div_assoc, div_self hs, mul_one]

theorem ratioList_nonneg (a b : List Char) : 0 ≤ ratioList a b := by
  by_cases h : a.length + b.length = 0
  · simp [ratioList, h]
  · rw [ratioList_eq_div a b h]
    positivity

theorem ratioList_le_100 (a b : List Char) : ratioList a b ≤ 100 := by
  by_cases h : a.length + b.length = 0
  · simp [ratioList, h]
  · rw [ratioList_eq_div a b h]
    rw [div_le_iff₀ (by positivity : (0:ℚ) < ((a.length + b.length : ℕ) : ℚ))]
    have : ((a.length + b.length - indelDist a b : ℕ) : ℚ) ≤ ((a.length + b.length : ℕ) : ℚ) := by
      exact_mod_cast Nat.sub_le _ _
    nlinarith

theorem ratPlusNat_eq (q : ℚ) (n : Nat) : ratPlusNat q n = q + n := by
  have hden : ((q.den : ℤ) : ℚ) ≠ 0 := by
    exact_mod_cast q.den_nz
  simp only [ratPlusNat, Rat.mkRat_eq_div]
  push_cast
  rw [add_div, mul_div_assoc]
  rw [div_self (by exact_mod_cast q.den_nz : ((q.den : ℚ)) ≠ 0)]
  rw [Rat.num_div_den]
  ring

theorem token_sort_ratio_self (a : String) : token_sort_ratio a a = 100 := by
  simp [token_sort_ratio, ratioList_self]

theorem fbm_fold_inv (ents : String → List String) (f : String) :
    ∀ (keys : List String) (st : Option String × ℚ),
      ((st.1 = none → st.2 = 0) ∧ (∀ k, st.1 = some k → st.2 = scorePair ents f k)) →
      (((keys.foldl (fun st key =>
          if scorePair ents f key > st.2 then (some key, scorePair ents f key) else st)
          st).1 = none →
        (keys.foldl (fun st key =>
          if scorePair ents f key > st.2 then (some key, scorePair ents f key) else st)
          st).2 = 0) ∧
       (∀ k, (keys.foldl (fun st key =>
          if scorePair ents f key > st.2 then (some key, scorePair ents f key) else st)
          st).1 = some k →
        (keys.foldl (fun st key =>
          if scorePair ents f key > st.2 then (some key, scorePair ents f key) else st)
          st).2 = scorePair ents f k)) := by
  intro keys
  induction keys with
  | nil => intro st h; exact h
  | cons key rest ih =>
    intro st h
    simp only [List.foldl_cons]
    apply ih
    by_cases hc : scorePair ents f key > st.2
    · simp only [if_pos hc]
      refine ⟨by simp, ?_⟩
      intro k hk
      simp at hk
      rw [hk]
    · simp only [if_neg hc]
      exact h

theorem pyMax_fold_spec (key : String → ℚ) :
    ∀ (xs : List String) (init : String),
      key init ≤ key (xs.foldl (fun b y => if key y > key b then y else b) init) ∧
      ∀ y ∈ xs, key y ≤ key (xs.foldl (fun b y => if key y > key b then y else b) init) := by
  intro xs
  induction xs with
  | nil => intro init; simp
  | cons y ys ih =>
    intro init
    simp only [List.foldl_cons]
    by_cases hc : key y > key init
    · simp only [if_pos hc]
      obtain ⟨h1, h2⟩ := ih y
      refine ⟨le_trans (le_of_lt hc) h1, ?_⟩
      intro z hz
      rcases List.mem_cons.mp hz with rfl | hz
      · exact h1
      · exact h2 z hz
    · simp only [if_neg hc]
      obtain ⟨h1, h2⟩ := ih init
      refine ⟨h1, ?_⟩
      intro z hz
      rcases List.mem_cons.mp hz with rfl | hz
      · exact le_trans (le_of_not_lt hc) h1
      · exact h2 z hz

theorem fuzzyOne_fst (keys : List String) (f : String)
    (pr : String × Option String) (h : fuzzyOne keys f = .ok pr) : pr.1 = f := by
  unfold fuzzyOne at h
  cases hm : pyMax (fun x => fuzz_ratio (pyLower f) (pyLower x)) keys with
  | none => rw [hm] at h; exact absurd h (by simp)
  | some best =>
    rw [hm] at h
    simp at h
    rw [← h]

theorem fuzzyOne_accept (keys : List String) (f f' k : String)
    (h : fuzzyOne keys f = .ok (f', some k)) :
    fuzz_ratio (pyLower f) (pyLower k) > 70 := by
  unfold fuzzyOne at h
  cases hm : pyMax (fun x => fuzz_ratio (pyLower f) (pyLower x)) keys with
  | none => rw [hm] at h; exact absurd h (by simp)
  | some best =>
    rw [hm] at h
    simp at h
    obtain ⟨-, h70, rfl⟩ := h
    exact h70

theorem fallback_mem (keys : List String) :
    ∀ (fields : List String) (m : List (String × Option String)),
      fallback_fuzzy_matching fields keys = .ok m →
      ∀ pr ∈ m, ∃ f ∈ fields, fuzzyOne keys f = .ok pr := by
  intro fields
  induction fields with
  | nil =>
    intro m hm
    simp only [fallback_fuzzy_matching] at hm
    obtain rfl : ([] : List (String × Option String)) = m := by simpa using hm
    simp
  | cons f rest ih =>
    intro m hm
    simp only [fallback_fuzzy_matching] at hm
    cases h1 : fuzzyOne keys f with
    | error e => rw [h1] at hm; exact absurd hm (by simp)
    | ok pr =>
      rw [h1] at hm
      cases h2 : fallback_fuzzy_matching rest keys with
      | error e => rw [h2] at hm; exact absurd hm (by simp)
      | ok m' =>
        rw [h2] at hm
        obtain rfl : pr :: m' = m := by simpa using hm
        intro q hq
        rcases List.mem_cons.mp hq with rfl | hq
        · exact ⟨f, by simp, h1⟩
        · obtain ⟨g, hg, hgq⟩ := ih m' h2 q hq
          exact ⟨g, by simp [hg], hgq⟩

theorem fallback_keys (keys : List String) :
    ∀ (fields : List String) (m : List (String × Option String)),
      fallback_fuzzy_matching fields keys = .ok m → m.map Prod.fst = fields := by
  intro fields
  induction fields with
  | nil =>
    intro m hm
    simp only [fallback_fuzzy_matching] at hm
    obtain rfl : ([] : List (String × Option String)) = m := by simpa using hm
    simp
  | cons f rest ih =>
    intro m hm
    simp only [fallback_fuzzy_matching] at hm
    cases h1 : fuzzyOne keys f with
    | error e => rw [h1] at hm; exact absurd hm (by simp)
    | ok pr =>
      rw [h1] at hm
      cases h2 : fallback_fuzzy_matching rest keys with
      | error e => rw [h2] at hm; exact absurd hm (by simp)
      | ok m' =>
        rw [h2] at hm
        obtain rfl : pr :: m' = m := by simpa using hm
        simp [fuzzyOne_fst keys f pr h1, ih m' h2]

theorem fuzzyOne_ok_of_ne_nil (keys : List String) (hk : keys ≠ []) (f : String) :
    ∃ pr, fuzzyOne keys f = .ok pr := by
  match keys, hk with
  | x :: xs, _ => exact ⟨_, rfl⟩

theorem fallback_ok_of_ne_nil (keys : List String) (hk : keys ≠ []) :
    ∀ fields : List String, ∃ m, fallback_fuzzy_matching fields keys = .ok m := by
  intro fields
  induction fields with
  | nil => exact ⟨[], rfl⟩
  | cons f rest ih =>
    obtain ⟨m, hm⟩ := ih
    obtain ⟨pr, hpr⟩ := fuzzyOne_ok_of_ne_nil keys hk f
    refine ⟨pr :: m, ?_⟩
    simp only [fallback_fuzzy_matching]
    rw [hpr, hm]

theorem match_fields_parse_fail
    (parse : String → Option (List (String × Option String)))
    (resp : String) (fields keys : List String)
    (h1 : parse (strip_code_blocks resp) = none)
    (h2 : ∀ span, extractBraces (strip_code_blocks resp) = some span →
      parse span = none) :
    match_fields_with_gemini parse resp fields keys =
      fallback_fuzzy_matching fields keys := by
  simp only [match_fields_with_gemini]
  rw [h1]
  cases hx : extractBraces (strip_code_blocks resp) with
  | none => rfl
  | some span => simp [h2 span hx]

theorem dictInsert_mem_keys (m : List (String × String)) (k v x y : String)
    (h : (x, y) ∈ dictInsert m k v) : (∃ z, (x, z) ∈ m) ∨ x = k := by
  unfold dictInsert at h
  split at h
  · obtain ⟨p, hp, hpe⟩ := List.mem_map.mp h
    by_cases hc : p.1 == k
    · rw [if_pos hc] at hpe
      right
      have : k = x := congrArg Prod.fst hpe
      exact this.symm
    · rw [if_neg hc] at hpe
      left
      exact ⟨y, hpe ▸ hp⟩
  · rcases List.mem_append.mp h with hm | hm
    · exact Or.inl ⟨y, hm⟩
    · right
      have : (x, y) = (k, v) := by simpa using hm
      exact congrArg Prod.fst this

theorem fill_updates_keys (data : List (String × String)) :
    ∀ (matched : List (String × Option String)) (acc : List (String × String))
      (x y : String),
      (x, y) ∈ matched.foldl
        (fun updates pr =>
          match pr.2 with
          | some k =>
            match dictGet data k with
            | some v => dictInsert updates pr.1 v
            | none => updates
          | none => updates) acc →
      (∃ z, (x, z) ∈ acc) ∨ x ∈ matched.map Prod.fst := by
  intro matched
  induction matched with
  | nil => intro acc x y h; exact Or.inl ⟨y, h⟩
  | cons pr rest ih =>
    intro acc x y h
    simp only [List.foldl_cons] at h
    have step :
        ∀ acc' : List (String × String),
          ((∃ z, (x, z) ∈ acc') ∨ x ∈ rest.map Prod.fst) →
          (acc' = acc ∨ ∃ v, acc' = dictInsert acc pr.1 v) →
          (∃ z, (x, z) ∈ acc) ∨ x ∈ (pr :: rest).map Prod.fst := by
      intro acc' hin hcase
      rcases hin with ⟨z, hz⟩ | hrest
      · rcases hcase with rfl | ⟨v, rfl⟩
        · exact Or.inl ⟨z, hz⟩
        · rcases dictInsert_mem_keys acc pr.1 v x z hz with hacc | rfl
          · exact Or.inl hacc
          · right; simp
      · right; simp [hrest]
    cases hpr : pr.2 with
    | none =>
      rw [hpr] at h
      exact step acc (ih acc x y h) (Or.inl rfl)
    | some k =>
      rw [hpr] at h
      cases hg : dictGet data k with
      | none =>
        simp only [hg] at h
        exact step acc (ih acc x y h) (Or.inl rfl)
      | some v =>
        simp only [hg] at h
        exact step (dictInsert acc pr.1 v) (ih (dictInsert acc pr.1 v) x y h)
          (Or.inr ⟨v, rfl⟩)

/-! ## Claim theorems -/

/-- C3: for every field list and non-empty data record, a fuzzy-sourced
mapping entry is accepted only above the variant's threshold: in the pure
fallback matcher an accepted key scores strictly above 70 on
`fuzz.ratio` of the lower-cased strings, and in the entity-boosted matcher
an accepted key's (possibly boosted) score is strictly above 40; any field
whose best score does not exceed the threshold maps to null instead (the
matchers return `none` for it), so no fuzzy-sourced entry ever carries a
score at or below the threshold. -/
theorem C3_thresholds (ents : String → List String) (fields keys : List String)
    (f k : String) (m : List (String × Option String)) (hk : keys ≠ []) :
    (fallback_fuzzy_matching fields keys = .ok m → (f, some k) ∈ m →
      fuzz_ratio (pyLower f) (pyLower k) > 70) ∧
    (find_best_match ents f keys = some k → scorePair ents f k > 40) := by
  constructor
  · intro hm hmem
    obtain ⟨g, -, hg⟩ := fallback_mem keys fields m hm (f, some k) hmem
    have hf : f = g := by
      have := fuzzyOne_fst keys g (f, some k) hg
      simpa using this
    subst hf
    exact fuzzyOne_accept keys f f k hg
  · intro h
    unfold find_best_match at h
    have hinv := fbm_fold_inv ents f keys ((none : Option String), (0 : ℚ))
      ⟨fun _ => rfl, by simp⟩
    set r := keys.foldl
      (fun st key =>
        if scorePair ents f key > st.2 then (some key, scorePair ents f key) else st)
      ((none : Option String), (0 : ℚ)) with hr
    by_cases hc : r.2 > 40
    · rw [if_pos hc] at h
      rw [← hinv.2 k h]
      exact hc
    · rw [if_neg hc] at h
      exact absurd h (by simp)

/-- C3 witness: concrete accepted matches of both variants, with their
scores strictly above the respective thresholds. -/
theorem C3_witness :
    fuzz_ratio (pyLower "ab") (pyLower "ab") > 70 ∧
    scorePair (fun _ => []) "ab" "ab" > 40 := by
  have h := C3_thresholds (fun _ => []) ["ab"] ["ab"] "ab" "ab"
    [("ab", some "ab")] (by decide)
  exact ⟨h.1 rfl (by decide), h.2 rfl⟩

/-- C4: the entity-boosted score of `find_best_match` is exactly the
token-order-insensitive similarity ratio of the lower-cased strings plus
10 if and only if the two entity-label sets share a label; the base ratio
lies in the range 0 to 100, and a string whose entity set is empty scores
exactly 100 against itself with no boost. -/
theorem C4_score_boost (ents : String → List String) (a b : String) :
    (scorePair ents a b =
      token_sort_ratio (pyLower a) (pyLower b) +
        (if ∃ e ∈ ents (pyLower a), e ∈ ents (pyLower b) then (10 : ℚ) else 0)) ∧
    0 ≤ token_sort_ratio (pyLower a) (pyLower b) ∧
    token_sort_ratio (pyLower a) (pyLower b) ≤ 100 ∧
    (ents (pyLower a) = [] → scorePair ents a a = 100) := by
  refine ⟨?_, ?_, ?_, ?_⟩
  · unfold scorePair
    by_cases hb : ∃ e ∈ ents (pyLower a), e ∈ ents (pyLower b)
    · rw [if_pos hb]
      have hany : (ents (pyLower a)).any
          (fun e => decide (e ∈ ents (pyLower b))) = true := by
        simp only [List.any_eq_true, decide_eq_true_eq]
        exact hb
      rw [if_pos hany, ratPlusNat_eq]
      norm_num
    · rw [if_neg hb]
      have hany : ¬ (ents (pyLower a)).any
          (fun e => decide (e ∈ ents (pyLower b))) = true := by
        simp only [List.any_eq_true, decide_eq_true_eq]
        exact hb
      rw [if_neg hany]
      norm_num
  · exact ratioList_nonneg _ _
  · exact ratioList_le_100 _ _
  · intro he
    unfold scorePair
    rw [if_neg (by simp [he])]
    exact token_sort_ratio_self (pyLower a)

/-- C4 witness. -/
theorem C4_witness : scorePair (fun _ => []) "Seller Name" "Seller Name" = 100 :=
  (C4_score_boost (fun _ => []) "Seller Name" "Seller Name").2.2.2 rfl

/-- C5: if the fence-stripped model text fails JSON parsing and the
brace-extraction recovery also fails to parse, `match_fields_with_gemini`
returns exactly the result of `fallback_fuzzy_matching` on the same field
names and data keys — a single fallback pass whose result is final. -/
theorem C5_fallback_final
    (parse : String → Option (List (String × Option String)))
    (resp : String) (fields keys : List String)
    (h1 : parse (strip_code_blocks resp) = none)
    (h2 : ∀ span, extractBraces (strip_code_blocks resp) = some span →
      parse span = none) :
    match_fields_with_gemini parse resp fields keys =
      fallback_fuzzy_matching fields keys :=
  match_fields_parse_fail parse resp fields keys h1 h2

/-- C5 witness: a parser failing on every input sends a concrete
unparsable response to the fuzzy fallback. -/
theorem C5_witness :
    match_fields_with_gemini parseNone "this is not json" ["ab"] ["ab"] =
      fallback_fuzzy_matching ["ab"] ["ab"] :=
  C5_fallback_final parseNone "this is not json" ["ab"] ["ab"] rfl
    (fun _ _ => rfl)

/-- C7, counterexample: a model response whose parsed JSON object maps the
invented name `Ghost Field` to a data key is applied as-is by the
resolution engine — the final mapping's key does not belong to the form's
field set `[Real Field]`, so a final-mapping key can originate solely from
the generative model's output. -/
theorem C7_counterexample :
    resolve_and_update parseGhost "GHOST" ["Real Field"] [("k", "v")] =
      .ok [("Ghost Field", "v")] ∧
    ("Ghost Field" : String) ∉ (["Real Field"] : List String) := by
  exact ⟨rfl, by decide⟩

/-- C7, amended: whenever the final mapping comes from the fuzzy fallback
(the model output failed both JSON parses), every key of the applied
mapping is a field name of the original form's field set; in the
model-success path the parsed object's keys are applied without being
checked against the field set. -/
theorem C7_keys_from_fields
    (parse : String → Option (List (String × Option String)))
    (resp : String) (fields : List String) (data : List (String × String))
    (m : List (String × String))
    (h1 : parse (strip_code_blocks resp) = none)
    (h2 : ∀ span, extractBraces (strip_code_blocks resp) = some span →
      parse span = none)
    (hm : resolve_and_update parse resp fields data = .ok m) :
    ∀ x y, (x, y) ∈ m → x ∈ fields := by
  intro x y hxy
  unfold resolve_and_update at hm
  rw [match_fields_parse_fail parse resp fields (data.map Prod.fst) h1 h2] at hm
  cases hf : fallback_fuzzy_matching fields (data.map Prod.fst) with
  | error e => rw [hf] at hm; exact absurd hm (by simp)
  | ok matched =>
    rw [hf] at hm
    obtain rfl : fill_form_updates matched data = m := by simpa using hm
    rcases fill_updates_keys data matched [] x y hxy with ⟨z, hz⟩ | hkey
    · exact absurd hz (by simp)
    · rw [fallback_keys (data.map Prod.fst) fields matched hf] at hkey
      exact hkey

/-- C7 witness: in a concrete fallback run the only applied key is the
form's own field name. -/
theorem C7_witness : ("ab" : String) ∈ (["ab"] : List String) :=
  C7_keys_from_fields parseNone "unparsable" ["ab"] [("ab", "v")]
    [("ab", "v")] rfl (fun _ _ => rfl) rfl "ab" "v" (by decide)

/-- C8, counterexample: with an empty data record and one form field, an
unparsable model response sends the engine to the fuzzy fallback, where
Python's `max` over the empty key sequence raises `ValueError` — the
resolution engine raises to its caller instead of returning an empty
mapping. -/
theorem C8_counterexample :
    match_fields_with_gemini parseNone "x" ["A"] [] =
      .error "ValueError: max() arg is an empty sequence" := rfl

/-- C8, amended: for every field-name list and every non-empty data
record, the resolution engine returns a mapping and never raises; with an
empty data record and a non-empty field list the fuzzy fallback raises
`ValueError` from `max()` on an empty sequence (caught only by the
form-filling caller's generic handler). -/
theorem C8_no_raise
    (parse : String → Option (List (String × Option String)))
    (resp : String) (fields keys : List String) (hk : keys ≠ []) :
    ∃ m, match_fields_with_gemini parse resp fields keys = .ok m := by
  simp only [match_fields_with_gemini]
  cases hp : parse (strip_code_blocks resp) with
  | some m => exact ⟨m, rfl⟩
  | none =>
    cases hx : extractBraces (strip_code_blocks resp) with
    | none => exact fallback_ok_of_ne_nil keys hk fields
    | some span =>
      cases hs : parse span with
      | some m => exact ⟨m, by simp [hs]⟩
      | none =>
        simp only [hs]
        exact fallback_ok_of_ne_nil keys hk fields

/-- C8 witness. -/
theorem C8_witness :
    ∃ m, match_fields_with_gemini parseNone "x" ["A"] ["k"] = .ok m :=
  C8_no_raise parseNone "x" ["A"] ["k"] (by decide)

/-- C1, counterexample: with the prompt `hello` (which contains no
occurrence of `extract`), a safety-blocked first response followed by a
normal second response carrying `world` makes `call_gemini_api` with
`retry_count = 2` return `world`, yet the prompt sent on the second
attempt is identical to the prompt sent on the first — the claimed
"differs" part of C1 is false. -/
theorem C1_counterexample :
    (call_gemini_api c1srv "hello" 2 2).retVal = "world" ∧
    (call_gemini_api c1srv "hello" 2 2).prompts = ["hello", "hello"] := by
  constructor <;> decide

/-- C1, amended: if the first response is safety-blocked and the second is
a normal response carrying text `t`, then `call_gemini_api` with
`retry_count ≥ 2` returns `t`, and the prompt sent on the second attempt
is the prompt-softening transform applied to the first attempt's prompt
(the two differ exactly when the transform rewrites something, e.g. when
the prompt contains `extract`; they coincide otherwise). -/
theorem C1_safety_then_success (srv : Nat → AttemptOutcome) (p t : String)
    (rc b : Nat) (c0 c1 : Candidate) (r0 r1 : List Candidate) (ps : List String)
    (h2 : 2 ≤ rc)
    (h0 : srv 0 = .body (c0 :: r0)) (hfr0 : c0.finishReason = "SAFETY")
    (h1 : srv 1 = .body (c1 :: r1)) (hfr1 : c1.finishReason ≠ "SAFETY")
    (hp : c1.parts = t :: ps) :
    (call_gemini_api srv p rc b).retVal = t ∧
    (call_gemini_api srv p rc b).prompts = [p, modify_prompt_for_safety p] := by
  obtain ⟨r, rfl⟩ := Nat.exists_eq_add_of_le h2
  simp only [call_gemini_api]
  rw [show 2 + r = (r + 1) + 1 by omega]
  simp [callGeminiAux, h0, hfr0, h1, hfr1, hp]

/-- C1 witness: at a prompt that does contain `extract`, the second
attempt's prompt is the softened one and the second response's text is
returned. -/
theorem C1_witness :
    (call_gemini_api c1srv "Please extract the data" 2 2).retVal = "world" ∧
    (call_gemini_api c1srv "Please extract the data" 2 2).prompts =
      ["Please extract the data", "Kindly provide the data"] := by
  have h := C1_safety_then_success c1srv "Please extract the data" "world" 2 2
    ⟨"SAFETY", []⟩ ⟨"STOP", ["world"]⟩ [] [] []
    (by decide) rfl (by decide) rfl (by decide) rfl
  exact ⟨h.1, h.2.trans (by decide)⟩

/-- C2: when every HTTP attempt raises a transport error, the client with
`retry_count = 3` performs exactly 3 attempts (one recorded prompt per
attempt), sleeps `backoff_factor ^ attempt` after each failed attempt, and
returns the empty string.  The embedding is total because the source's
`except` clauses catch every exception, so nothing propagates to the
caller. -/
theorem C2_timeout_retries (p : String) (b : Nat) (srv : Nat → AttemptOutcome)
    (h : ∀ i, srv i = .raiseReq) :
    call_gemini_api srv p 3 b = ⟨"", [p, p, p], [b ^ 0, b ^ 1, b ^ 2]⟩ := by
  simp [call_gemini_api, callGeminiAux, h 0, h 1, h 2]

/-- C2 witness. -/
theorem C2_witness :
    call_gemini_api (fun _ => .raiseReq) "x" 3 2 =
      ⟨"", ["x", "x", "x"], [2 ^ 0, 2 ^ 1, 2 ^ 2]⟩ :=
  C2_timeout_retries "x" 2 (fun _ => .raiseReq) (fun _ => rfl)

/-- C9, counterexample: with a first attempt safety-blocked and every
later attempt failing with a transport error, the client called with
`retry_count = 3` performs exactly 3 attempts — never more than
`retry_count`, contradicting the claimed separate budget. -/
theorem C9_counterexample :
    ¬ (call_gemini_api c9srv "p" 3 2).prompts.length > 3 := by decide

/-- C9, amended: safety-blocked and transport-error retries share the one
loop counter of `call_gemini_api`, so the total number of HTTP attempts
never exceeds `retry_count`, whatever mix of outcomes the server
produces. -/
theorem C9_shared_budget (srv : Nat → AttemptOutcome) (p : String) (rc b : Nat) :
    (call_gemini_api srv p rc b).prompts.length ≤ rc := by
  have := callGeminiAux_prompts_len srv b rc 0 p [] []
  simpa using this

end AIAgent

namespace AIAgent

theorem closeTick_ne_nil : closeTick ≠ [] := by decide

theorem head_mem_of_closeTick_front (c : Char) (l : List Char)
    (h : closeTick <+: c :: l) : c ∈ closeTick := by
  obtain ⟨hd, tl, hct⟩ := List.exists_cons_of_ne_nil closeTick_ne_nil
  rw [hct] at h
  obtain ⟨rfl, -⟩ := List.cons_prefix_cons.mp h
  rw [hct]
  exact List.mem_cons_self _ _

theorem tailTicks_cases (cs : List Char) (h : tailTicks cs = true) :
    closeTick <+: cs ∨ ∃ r, cs = '\n' :: r ∧ closeTick <+: r := by
  unfold tailTicks at h
  rw [Bool.or_eq_true] at h
  rcases h with h | h
  · exact Or.inl (List.isPrefixOf_iff_prefix.mp h)
  · split at h
    · next r => exact Or.inr ⟨r, rfl, List.isPrefixOf_iff_prefix.mp h⟩
    · exact absurd h (by simp)

theorem tailTicks_close_inside (cs : List Char) (h : tailTicks cs = true) :
    closeTick <:+: cs := by
  rcases tailTicks_cases cs h with hp | ⟨r, rfl, hp⟩
  · exact hp.isInfix
  · exact List.infix_cons hp.isInfix

theorem tailTicks_of_front (cs : List Char) (h : closeTick <+: cs) :
    tailTicks cs = true := by
  unfold tailTicks
  rw [Bool.or_eq_true]
  exact Or.inl (List.isPrefixOf_iff_prefix.mpr h)

theorem matchLazy_some_close_inside :
    ∀ (cs g : List Char), matchLazy cs = some g → closeTick <:+: cs := by
  intro cs
  induction cs with
  | nil =>
    intro g h
    rw [show matchLazy [] = none by decide] at h
    exact absurd h (by simp)
  | cons c rest ih =>
    intro g h
    unfold matchLazy at h
    by_cases ht : tailTicks (c :: rest) = true
    · exact tailTicks_close_inside _ ht
    · rw [if_neg ht] at h
      cases hr : matchLazy rest with
      | none => rw [hr] at h; exact absurd h (by simp)
      | some g' => exact List.infix_cons (ih g' hr)

theorem matchLazy_isSome_of_close :
    ∀ cs : List Char, closeTick <:+: cs → ∃ g, matchLazy cs = some g := by
  intro cs
  induction cs with
  | nil => intro h; exact absurd (List.eq_nil_of_infix_nil h) closeTick_ne_nil
  | cons c rest ih =>
    intro h
    by_cases ht : tailTicks (c :: rest) = true
    · exact ⟨[], by unfold matchLazy; rw [if_pos ht]⟩
    · have hrest : closeTick <:+: rest := by
        rcases List.infix_cons_iff.mp h with hp | hi
        · exact absurd (tailTicks_of_front _ hp) ht
        · exact hi
      obtain ⟨g, hg⟩ := ih hrest
      exact ⟨c :: g, by unfold matchLazy; rw [if_neg ht, hg]⟩

theorem matchLazy_group :
    ∀ (cs g : List Char), matchLazy cs = some g →
      ¬ closeTick <:+: g ∧ g <+: cs := by
  intro cs
  induction cs with
  | nil =>
    intro g h
    rw [show matchLazy [] = none by decide] at h
    exact absurd h (by simp)
  | cons c rest ih =>
    intro g h
    unfold matchLazy at h
    by_cases ht : tailTicks (c :: rest) = true
    · rw [if_pos ht] at h
      obtain rfl : ([] : List Char) = g := by simpa using h
      exact ⟨fun hc => closeTick_ne_nil (List.eq_nil_of_infix_nil hc), List.nil_prefix⟩
    · rw [if_neg ht] at h
      cases hr : matchLazy rest with
      | none => rw [hr] at h; exact absurd h (by simp)
      | some g' =>
        rw [hr] at h
        obtain rfl : c :: g' = g := by simpa using h
        obtain ⟨hng', hpre⟩ := ih g' hr
        refine ⟨?_, List.cons_prefix_cons.mpr ⟨rfl, hpre⟩⟩
        intro hc
        rcases List.infix_cons_iff.mp hc with hp | hi
        · exact ht (tailTicks_of_front _ (hp.trans (List.cons_prefix_cons.mpr ⟨rfl, hpre⟩)))
        · exact hng' hi

end AIAgent

namespace AIAgent

theorem newline_not_closeTick_front (r : List Char) :
    ¬ closeTick <+: '\n' :: r := by
  intro h
  have := head_mem_of_closeTick_front '\n' r h
  exact absurd this (by decide)

theorem matchNlThen_some_close_inside (cs g : List Char) (h : matchNlThen cs = some g) :
    closeTick <:+: cs := by
  unfold matchNlThen at h
  split at h
  · next r =>
    cases hr : matchLazy r with
    | some g' => exact List.infix_cons (matchLazy_some_close_inside r g' hr)
    | none => rw [hr] at h; exact matchLazy_some_close_inside _ g h
  · exact matchLazy_some_close_inside _ g h

theorem matchNlThen_isSome_of_close (cs : List Char) (h : closeTick <:+: cs) :
    ∃ g, matchNlThen cs = some g := by
  unfold matchNlThen
  split
  · next r =>
    have hr : closeTick <:+: r := by
      rcases List.infix_cons_iff.mp h with hp | hi
      · exact absurd hp (newline_not_closeTick_front r)
      · exact hi
    obtain ⟨g, hg⟩ := matchLazy_isSome_of_close r hr
    exact ⟨g, by rw [hg]⟩
  · exact matchLazy_isSome_of_close cs h

theorem matchNlThen_group (cs g : List Char) (h : matchNlThen cs = some g) :
    ¬ closeTick <:+: g ∧ g <:+: cs := by
  unfold matchNlThen at h
  split at h
  · next r =>
    cases hr : matchLazy r with
    | some g' =>
      rw [hr] at h
      obtain rfl : g' = g := by simpa using h
      obtain ⟨h1, h2⟩ := matchLazy_group r g' hr
      exact ⟨h1, List.infix_cons h2.isInfix⟩
    | none =>
      rw [hr] at h
      obtain ⟨h1, h2⟩ := matchLazy_group _ g h
      exact ⟨h1, h2.isInfix⟩
  · obtain ⟨h1, h2⟩ := matchLazy_group _ g h
    exact ⟨h1, h2.isInfix⟩

theorem matchWsThen_some_close_inside :
    ∀ (cs g : List Char), matchWsThen cs = some g → closeTick <:+: cs := by
  intro cs
  induction cs with
  | nil => intro g h; exact matchNlThen_some_close_inside [] g h
  | cons c rest ih =>
    intro g h
    unfold matchWsThen at h
    by_cases hw : isPyWs c = true
    · rw [if_pos hw] at h
      cases hr : matchWsThen rest with
      | some g' => exact List.infix_cons (ih g' hr)
      | none => rw [hr] at h; exact matchNlThen_some_close_inside _ g h
    · rw [if_neg hw] at h
      exact matchNlThen_some_close_inside _ g h

theorem matchWsThen_isSome_of_close :
    ∀ cs : List Char, closeTick <:+: cs → ∃ g, matchWsThen cs = some g := by
  intro cs
  induction cs with
  | nil => intro h; exact absurd (List.eq_nil_of_infix_nil h) closeTick_ne_nil
  | cons c rest ih =>
    intro h
    unfold matchWsThen
    by_cases hw : isPyWs c = true
    · rw [if_pos hw]
      cases hr : matchWsThen rest with
      | some g' => exact ⟨g', rfl⟩
      | none =>
        obtain ⟨g, hg⟩ := matchNlThen_isSome_of_close (c :: rest) h
        exact ⟨g, by rw [hg]⟩
    · rw [if_neg hw]
      exact matchNlThen_isSome_of_close (c :: rest) h

theorem matchWsThen_group :
    ∀ (cs g : List Char), matchWsThen cs = some g →
      ¬ closeTick <:+: g ∧ g <:+: cs := by
  intro cs
  induction cs with
  | nil => intro g h; exact matchNlThen_group [] g h
  | cons c rest ih =>
    intro g h
    unfold matchWsThen at h
    by_cases hw : isPyWs c = true
    · rw [if_pos hw] at h
      cases hr : matchWsThen rest with
      | some g' =>
        rw [hr] at h
        obtain rfl : g' = g := by simpa using h
        obtain ⟨h1, h2⟩ := ih g' hr
        exact ⟨h1, List.infix_cons h2⟩
      | none =>
        rw [hr] at h
        exact matchNlThen_group _ g h
    · rw [if_neg hw] at h
      exact matchNlThen_group _ g h

theorem fenceTag_length : fenceTag.length = 7 := by decide

theorem closeTick_prefix_fenceTag : closeTick <+: fenceTag := by decide

theorem tryFenceAt_group (cs g : List Char) (h : tryFenceAt cs = some g) :
    ¬ closeTick <:+: g ∧ g <:+: cs := by
  unfold tryFenceAt at h
  by_cases hp : fenceTag.isPrefixOf cs = true
  · rw [if_pos hp] at h
    obtain ⟨h1, h2⟩ := matchWsThen_group _ g h
    exact ⟨h1, h2.trans (List.drop_suffix 7 cs).isInfix⟩
  · rw [if_neg hp] at h
    exact absurd h (by simp)

theorem tryFenceAt_fence (cs g : List Char) (h : tryFenceAt cs = some g) :
    fenceTag <+: cs ∧ closeTick <:+: cs.drop 7 := by
  unfold tryFenceAt at h
  by_cases hp : fenceTag.isPrefixOf cs = true
  · rw [if_pos hp] at h
    exact ⟨List.isPrefixOf_iff_prefix.mp hp, matchWsThen_some_close_inside _ g h⟩
  · rw [if_neg hp] at h
    exact absurd h (by simp)

theorem tryFenceAt_isSome_of (cs : List Char) (h1 : fenceTag <+: cs)
    (h2 : closeTick <:+: cs.drop 7) : ∃ g, tryFenceAt cs = some g := by
  unfold tryFenceAt
  rw [if_pos (List.isPrefixOf_iff_prefix.mpr h1)]
  exact matchWsThen_isSome_of_close _ h2

theorem searchFence_group :
    ∀ (l g : List Char), searchFence l = some g →
      ¬ closeTick <:+: g ∧ g <:+: l := by
  intro l
  induction l with
  | nil =>
    intro g h
    rw [show searchFence [] = none by decide] at h
    exact absurd h (by simp)
  | cons c rest ih =>
    intro g h
    unfold searchFence at h
    cases ht : tryFenceAt (c :: rest) with
    | some g' =>
      rw [ht] at h
      obtain rfl : g' = g := by simpa using h
      exact tryFenceAt_group _ g' ht
    | none =>
      rw [ht] at h
      obtain ⟨h1, h2⟩ := ih g h
      exact ⟨h1, List.infix_cons h2⟩

theorem searchFence_hasFence :
    ∀ (l g : List Char), searchFence l = some g → hasFence l := by
  intro l
  induction l with
  | nil =>
    intro g h
    rw [show searchFence [] = none by decide] at h
    exact absurd h (by simp)
  | cons c rest ih =>
    intro g h
    unfold searchFence at h
    cases ht : tryFenceAt (c :: rest) with
    | some g' =>
      obtain ⟨h1, h2⟩ := tryFenceAt_fence _ g' ht
      exact ⟨0, by simpa using h1, by simpa using h2⟩
    | none =>
      rw [ht] at h
      obtain ⟨i, hi1, hi2⟩ := ih g h
      refine ⟨i + 1, ?_, ?_⟩
      · simpa using hi1
      · have : (c :: rest).drop (i + 1 + 7) = rest.drop (i + 7) := by
          simp [List.drop_succ_cons]
        rw [this]
        exact hi2

theorem searchFence_none_of_not_hasFence :
    ∀ l : List Char, ¬ hasFence l → searchFence l = none := by
  intro l h
  cases hs : searchFence l with
  | none => rfl
  | some g => exact absurd (searchFence_hasFence l g hs) h

theorem hasFence_of_searchFence_none :
    ∀ l : List Char, searchFence l = none → ¬ hasFence l := by
  intro l
  induction l with
  | nil =>
    intro _ hf
    obtain ⟨i, hi1, -⟩ := hf
    rw [List.drop_nil] at hi1
    exact absurd (List.prefix_nil.mp hi1) (by decide)
  | cons c rest ih =>
    intro h hf
    unfold searchFence at h
    cases ht : tryFenceAt (c :: rest) with
    | some g' => rw [ht] at h; exact absurd h (by simp)
    | none =>
      rw [ht] at h
      obtain ⟨i, hi1, hi2⟩ := hf
      cases i with
      | zero =>
        simp only [List.drop_zero] at hi1
        have h7 : (c :: rest).drop (0 + 7) = (c :: rest).drop 7 := by norm_num
        rw [h7] at hi2
        obtain ⟨g, hg⟩ := tryFenceAt_isSome_of (c :: rest) hi1 hi2
        rw [hg] at ht
        exact absurd ht (by simp)
      | succ j =>
        apply ih h
        refine ⟨j, by simpa using hi1, ?_⟩
        have : (c :: rest).drop (j + 1 + 7) = rest.drop (j + 7) := by
          simp [List.drop_succ_cons]
        rw [this] at hi2
        exact hi2

end AIAgent

namespace AIAgent

theorem drop_append_left (s x : List Char) (i : Nat) :
    (s ++ x).drop (s.length + i) = x.drop i := by
  rw [← List.drop_drop, List.drop_left]

theorem front_drop_append (pat l t : List Char) (i : Nat)
    (hpat : pat ≠ []) (h : pat <+: l.drop i) : pat <+: (l ++ t).drop i := by
  have hne : l.drop i ≠ [] := by
    intro hnil
    rw [hnil] at h
    exact hpat (List.prefix_nil.mp h)
  have hi : i ≤ l.length := by
    by_contra hgt
    push_neg at hgt
    exact hne (List.drop_eq_nil_of_le (le_of_lt hgt))
  rw [List.drop_append_eq_append_drop, Nat.sub_eq_zero_of_le hi, List.drop_zero]
  exact h.trans (List.prefix_append _ t)

theorem inside_drop_append (pat l t : List Char) (i : Nat)
    (hpat : pat ≠ []) (h : pat <:+: l.drop i) : pat <:+: (l ++ t).drop i := by
  have hne : l.drop i ≠ [] := by
    intro hnil
    rw [hnil] at h
    exact hpat (List.eq_nil_of_infix_nil h)
  have hi : i ≤ l.length := by
    by_contra hgt
    push_neg at hgt
    exact hne (List.drop_eq_nil_of_le (le_of_lt hgt))
  rw [List.drop_append_eq_append_drop, Nat.sub_eq_zero_of_le hi, List.drop_zero]
  exact h.trans (List.prefix_append _ t).isInfix

theorem fenceTag_ne_nil : fenceTag ≠ [] := by decide

theorem hasFence_mono (l₁ l₂ : List Char) (hinf : l₁ <:+: l₂)
    (hf : hasFence l₁) : hasFence l₂ := by
  obtain ⟨s, t, rfl⟩ := hinf
  obtain ⟨i, h1, h2⟩ := hf
  refine ⟨s.length + i, ?_, ?_⟩
  · rw [List.append_assoc, drop_append_left]
    exact front_drop_append fenceTag l₁ t i fenceTag_ne_nil h1
  · rw [List.append_assoc]
    have : s.length + i + 7 = s.length + (i + 7) := by omega
    rw [this, drop_append_left]
    exact inside_drop_append closeTick l₁ t (i + 7) closeTick_ne_nil h2

theorem not_hasFence_of_not_close (l : List Char)
    (h : ¬ closeTick <:+: l) : ¬ hasFence l := by
  intro hf
  obtain ⟨i, h1, -⟩ := hf
  have hct : closeTick <+: l.drop i := closeTick_prefix_fenceTag.trans h1
  exact h (hct.isInfix.trans (List.drop_suffix i l).isInfix)

theorem head_dropWhile_not (p : Char → Bool) :
    ∀ (l : List Char) (c : Char), (l.dropWhile p).head? = some c → p c = false := by
  intro l
  induction l with
  | nil => intro c h; simp at h
  | cons a rest ih =>
    intro c h
    rw [List.dropWhile_cons] at h
    by_cases hp : p a = true
    · rw [if_pos hp] at h
      exact ih c h
    · rw [if_neg hp] at h
      simp at h
      rw [← h]
      exact Bool.eq_false_iff.mpr hp

theorem dropWhile_eq_self_of_head (p : Char → Bool) (l : List Char)
    (h : ∀ c, l.head? = some c → p c = false) : l.dropWhile p = l := by
  cases l with
  | nil => rfl
  | cons a rest =>
    rw [List.dropWhile_cons, if_neg]
    simp [h a rfl]

theorem dropWhile_dropWhile (p : Char → Bool) (l : List Char) :
    (l.dropWhile p).dropWhile p = l.dropWhile p :=
  dropWhile_eq_self_of_head p _ (fun c hc => head_dropWhile_not p l c hc)

theorem pyStripL_prefix_dropWhile (l : List Char) :
    pyStripL l <+: l.dropWhile isPyWs := by
  unfold pyStripL
  rw [← List.reverse_suffix]
  rw [List.reverse_reverse]
  exact List.dropWhile_suffix isPyWs

theorem pyStripL_sub (l : List Char) : pyStripL l <:+: l :=
  (pyStripL_prefix_dropWhile l).isInfix.trans (List.dropWhile_suffix isPyWs).isInfix

theorem pyStripL_idem (l : List Char) : pyStripL (pyStripL l) = pyStripL l := by
  have h1 : (pyStripL l).dropWhile isPyWs = pyStripL l := by
    apply dropWhile_eq_self_of_head
    intro c hc
    have hpre := pyStripL_prefix_dropWhile l
    have hhead : (l.dropWhile isPyWs).head? = some c := by
      cases hd : pyStripL l with
      | nil => rw [hd] at hc; simp at hc
      | cons a rest =>
        rw [hd] at hc hpre
        simp at hc
        obtain ⟨t, ht⟩ := hpre
        rw [← ht, hc]
        rfl
    exact head_dropWhile_not isPyWs l c hhead
  show ((((pyStripL l).dropWhile isPyWs).reverse.dropWhile isPyWs)).reverse = pyStripL l
  rw [h1]
  show (((((l.dropWhile isPyWs).reverse.dropWhile isPyWs)).reverse.reverse.dropWhile isPyWs)).reverse
      = pyStripL l
  rw [List.reverse_reverse, dropWhile_dropWhile]
  rfl

theorem pyStripL_dropWhile (l : List Char) :
    pyStripL (l.dropWhile isPyWs) = pyStripL l := by
  unfold pyStripL
  rw [dropWhile_dropWhile]

end AIAgent

namespace AIAgent

theorem toList_mkStr (l : List Char) : (String.mk l).toList = l := rfl

theorem strip_result (x : String) :
    ∃ l : List Char,
      strip_code_blocks x = String.mk (pyStripL l) ∧ ¬ hasFence (pyStripL l) := by
  unfold strip_code_blocks
  cases hs : searchFence x.toList with
  | some g =>
    refine ⟨g, rfl, ?_⟩
    have hg := searchFence_group x.toList g hs
    apply not_hasFence_of_not_close
    intro hc
    exact hg.1 (hc.trans (pyStripL_sub g))
  | none =>
    refine ⟨x.toList, rfl, ?_⟩
    intro hf
    exact hasFence_of_searchFence_none x.toList hs
      (hasFence_mono _ _ (pyStripL_sub x.toList) hf)

/-- C10: the response extractor is idempotent — in fact on every input, not
only those with at most one fenced block: the extracted group never
contains a closing fence (the lazy group stops at the first one), and
stripping cannot create a fence, so a second application finds no fence
and only re-trims an already trimmed string. -/
theorem C10_idempotent (x : String) :
    strip_code_blocks (strip_code_blocks x) = strip_code_blocks x := by
  obtain ⟨l, hl, hnf⟩ := strip_result x
  rw [hl]
  unfold strip_code_blocks
  rw [toList_mkStr, searchFence_none_of_not_hasFence _ hnf]
  unfold pyStrip
  rw [toList_mkStr, pyStripL_idem]

end AIAgent

namespace AIAgent

theorem tailTicks_false_heads (c : Char) (l : List Char)
    (hc : c ∉ closeTick) (hl : ∀ d, l.head? = some d → d ∉ closeTick) :
    tailTicks (c :: l) = false := by
  by_contra h
  rw [Bool.not_eq_false] at h
  rcases tailTicks_cases _ h with hp | ⟨r, hr, hp⟩
  · exact hc (head_mem_of_closeTick_front _ _ hp)
  · have h2 : l = r := (List.cons.injEq _ _ _ _).mp hr |>.2
    rw [← h2] at hp
    cases hlc : l with
    | nil =>
      rw [hlc] at hp
      exact absurd (List.prefix_nil.mp hp) closeTick_ne_nil
    | cons d l2 =>
      rw [hlc] at hp
      exact hl d (by rw [hlc]; rfl) (head_mem_of_closeTick_front _ _ hp)

theorem matchLazy_of_tailTicks (cs : List Char) (h : tailTicks cs = true) :
    matchLazy cs = some [] := by
  cases cs with
  | nil =>
    rw [show tailTicks [] = false by decide] at h
    exact absurd h (by simp)
  | cons c rest =>
    unfold matchLazy
    rw [if_pos h]

theorem tailTicks_newline_close (post : List Char) :
    tailTicks ('\n' :: (closeTick ++ post)) = true := by
  unfold tailTicks
  rw [Bool.or_eq_true]
  right
  show closeTick.isPrefixOf (closeTick ++ post) = true
  exact List.isPrefixOf_iff_prefix.mpr (List.prefix_append _ _)

theorem matchLazy_app (post : List Char) :
    ∀ body : List Char, (∀ c ∈ body, c ∉ closeTick) →
      matchLazy (body ++ '\n' :: (closeTick ++ post)) = some body := by
  intro body
  induction body with
  | nil =>
    intro _
    rw [List.nil_append]
    exact matchLazy_of_tailTicks _ (tailTicks_newline_close post)
  | cons c rest ih =>
    intro hb
    have hc : c ∉ closeTick := hb c (List.mem_cons_self _ _)
    have hrest : ∀ d ∈ rest, d ∉ closeTick := fun d hd => hb d (List.mem_cons_of_mem _ hd)
    have hheads : ∀ d, (rest ++ '\n' :: (closeTick ++ post)).head? = some d →
        d ∉ closeTick := by
      intro d hd
      cases rest with
      | nil =>
        rw [List.nil_append] at hd
        have : d = '\n' := by simpa using hd.symm
        rw [this]
        decide
      | cons e r2 =>
        rw [List.cons_append] at hd
        have : d = e := by simpa using hd.symm
        rw [this]
        exact hrest e (List.mem_cons_self _ _)
    rw [List.cons_append]
    unfold matchLazy
    rw [if_neg (by simp [tailTicks_false_heads c _ hc hheads])]
    rw [ih hrest]

theorem matchNlThen_not_newline (c : Char) (l : List Char) (h : c ≠ '\n') :
    matchNlThen (c :: l) = matchLazy (c :: l) := by
  unfold matchNlThen
  split
  · next r heq =>
    have : c = '\n' := ((List.cons.injEq _ _ _ _).mp heq).1
    exact absurd this h
  · rfl

theorem searchFence_head (l g : List Char) (h : tryFenceAt l = some g) :
    searchFence l = some g := by
  cases l with
  | nil =>
    rw [show tryFenceAt [] = none by decide] at h
    exact absurd h (by simp)
  | cons c rest =>
    unfold searchFence
    rw [h]

theorem closeTick_chars : ∀ c ∈ closeTick, isPyWs c = false ∧ c ≠ '\n' := by decide

theorem matchWsThen_closeTick_post (post : List Char) :
    matchWsThen (closeTick ++ post) = some [] := by
  obtain ⟨c0, ct, hc⟩ := List.exists_cons_of_ne_nil closeTick_ne_nil
  have hc0 : c0 ∈ closeTick := by rw [hc]; exact List.mem_cons_self _ _
  obtain ⟨hws, hnl⟩ := closeTick_chars c0 hc0
  have ht : tailTicks (closeTick ++ post) = true := by
    unfold tailTicks
    rw [Bool.or_eq_true]
    exact Or.inl (List.isPrefixOf_iff_prefix.mpr (List.prefix_append _ _))
  rw [hc, List.cons_append] at ht ⊢
  unfold matchWsThen
  rw [if_neg (by simp [hws])]
  rw [matchNlThen_not_newline c0 _ hnl]
  unfold matchLazy
  rw [if_pos ht]

theorem matchWsThen_app (post : List Char) :
    ∀ body : List Char, (∀ c ∈ body, c ∉ closeTick) →
      matchWsThen (body ++ '\n' :: (closeTick ++ post))
        = some (body.dropWhile isPyWs) := by
  intro body
  induction body with
  | nil =>
    intro _
    rw [List.nil_append]
    unfold matchWsThen
    rw [if_pos (by decide : isPyWs '\n' = true)]
    rw [matchWsThen_closeTick_post post]
    rfl
  | cons c rest ih =>
    intro hb
    have hc : c ∉ closeTick := hb c (List.mem_cons_self _ _)
    have hrest : ∀ d ∈ rest, d ∉ closeTick := fun d hd => hb d (List.mem_cons_of_mem _ hd)
    rw [List.cons_append]
    unfold matchWsThen
    by_cases hw : isPyWs c = true
    · rw [if_pos hw, ih hrest]
      simp [List.dropWhile_cons, hw]
    · rw [if_neg hw]
      have hcn : c ≠ '\n' := by
        intro hce
        subst hce
        simp [isPyWs] at hw
      rw [matchNlThen_not_newline c _ hcn]
      rw [← List.cons_append, matchLazy_app post (c :: rest) hb]
      simp [List.dropWhile_cons, hw]

theorem matchWsThen_ws_front :
    ∀ sep : List Char, (∀ c ∈ sep, isPyWs c = true) →
      ∀ (Z : List Char) (g : List Char), matchWsThen Z = some g →
        matchWsThen (sep ++ Z) = some g := by
  intro sep
  induction sep with
  | nil => intro _ Z g h; rw [List.nil_append]; exact h
  | cons c rs ih =>
    intro hsep Z g h
    have hw : isPyWs c = true := hsep c (List.mem_cons_self _ _)
    have hrs : ∀ d ∈ rs, isPyWs d = true := fun d hd => hsep d (List.mem_cons_of_mem _ hd)
    rw [List.cons_append]
    unfold matchWsThen
    rw [if_pos hw, ih hrs Z g h]

theorem head_mem_of_fenceTag_front (c : Char) (l : List Char)
    (h : fenceTag <+: c :: l) : c ∈ closeTick :=
  head_mem_of_closeTick_front c l (closeTick_prefix_fenceTag.trans h)

theorem searchFence_append_front :
    ∀ pre : List Char, (∀ c ∈ pre, c ∉ closeTick) →
      ∀ l : List Char, searchFence (pre ++ l) = searchFence l := by
  intro pre
  induction pre with
  | nil => intro _ l; rw [List.nil_append]
  | cons c rest ih =>
    intro h l
    have hc : c ∉ closeTick := h c (List.mem_cons_self _ _)
    have hrest : ∀ d ∈ rest, d ∉ closeTick := fun d hd => h d (List.mem_cons_of_mem _ hd)
    have htry : tryFenceAt (c :: (rest ++ l)) = none := by
      unfold tryFenceAt
      rw [if_neg]
      intro hp
      exact hc (head_mem_of_fenceTag_front _ _ (List.isPrefixOf_iff_prefix.mp hp))
    rw [List.cons_append]
    conv_lhs => rw [searchFence]
    simp only [htry]
    exact ih hrest l

theorem strip_fenced (pre sep body post : String)
    (hpre : ∀ c ∈ pre.toList, c ∉ closeTick)
    (hsep : ∀ c ∈ sep.toList, isPyWs c = true)
    (hbody : ∀ c ∈ body.toList, c ∉ closeTick) :
    strip_code_blocks (pre ++ "```json" ++ sep ++ body ++ "\n```" ++ post) =
      pyStrip body := by
  have hWs : matchWsThen
      (sep.toList ++ (body.toList ++ '\n' :: (closeTick ++ post.toList)))
      = some (body.toList.dropWhile isPyWs) :=
    matchWsThen_ws_front sep.toList hsep _ _
      (matchWsThen_app post.toList body.toList hbody)
  have htry : tryFenceAt
      (fenceTag ++ (sep.toList ++ (body.toList ++ '\n' :: (closeTick ++ post.toList))))
      = some (body.toList.dropWhile isPyWs) := by
    unfold tryFenceAt
    rw [if_pos (List.isPrefixOf_iff_prefix.mpr (List.prefix_append _ _))]
    rw [show (fenceTag ++
          (sep.toList ++ (body.toList ++ '\n' :: (closeTick ++ post.toList)))).drop 7
        = sep.toList ++ (body.toList ++ '\n' :: (closeTick ++ post.toList)) by
      rw [← fenceTag_length]
      exact List.drop_left _ _]
    exact hWs
  have htl : (pre ++ "```json" ++ sep ++ body ++ "\n```" ++ post).toList
      = pre.toList ++
        (fenceTag ++ (sep.toList ++ (body.toList ++ '\n' :: (closeTick ++ post.toList)))) := by
    show (pre ++ "```json" ++ sep ++ body ++ "\n```" ++ post).data = _
    rw [String.data_append, String.data_append, String.data_append, String.data_append,
        String.data_append]
    have h1 : "```json".data = fenceTag := rfl
    have h2 : "\n```".data = '\n' :: closeTick := by decide
    rw [h1, h2]
    simp
  unfold strip_code_blocks
  rw [htl, searchFence_append_front pre.toList hpre _, searchFence_head _ _ htry]
  show String.mk (pyStripL (body.toList.dropWhile isPyWs)) = pyStrip body
  rw [pyStripL_dropWhile]
  rfl

end AIAgent

namespace AIAgent

/-- C6: the response extractor returns the trimmed interior of a
json-tagged fenced block when one is present — concretely on the spec's
example, and in general for every input containing one such fence:
arbitrary backtick-free prose before the opening fence, arbitrary
whitespace between the `json` tag and the interior, a backtick-free
interior, the closing fence on its own line, and arbitrary text after it —
and returns the trimmed original text when the input contains no complete
tagged fence. -/
theorem C6_extractor :
    (strip_code_blocks "```json\n\x7b\"A\":\"B\"\x7d\n```" = "\x7b\"A\":\"B\"\x7d") ∧
    (∀ pre sep body post : String,
      (∀ c ∈ pre.toList, c ∉ closeTick) →
      (∀ c ∈ sep.toList, isPyWs c = true) →
      (∀ c ∈ body.toList, c ∉ closeTick) →
      strip_code_blocks (pre ++ "```json" ++ sep ++ body ++ "\n```" ++ post) =
        pyStrip body) ∧
    (∀ t : String, ¬ hasFence t.toList → strip_code_blocks t = pyStrip t) := by
  refine ⟨by decide,
    fun pre sep body post hpre hsep hbody => strip_fenced pre sep body post hpre hsep hbody,
    fun t ht => ?_⟩
  unfold strip_code_blocks
  rw [searchFence_none_of_not_hasFence _ ht]

/-- C6 witness: a fence embedded in surrounding prose, with extra
whitespace after the tag, still yields exactly the trimmed interior. -/
theorem C6_witness :
    strip_code_blocks
        ("Sure, here is the mapping: " ++ "```json" ++ "  \n" ++
          "\x7b\"A\":\"B\"\x7d" ++ "\n```" ++ " Hope this helps.") =
      pyStrip "\x7b\"A\":\"B\"\x7d" :=
  C6_extractor.2.1 "Sure, here is the mapping: " "  \n" "\x7b\"A\":\"B\"\x7d"
    " Hope this helps." (by decide) (by decide) (by decide)

end AIAgent
